import Mathlib

/-!
Verification of `TranscribeLargeFile20250308.py`.

Shallow embedding conventions:
* Python strings are modelled as `String` (paths) or `List Char` (transcript
  text, where whitespace stripping must be reasoned about character by
  character).
* An audio stream (`pydub.AudioSegment`) is modelled by its total duration in
  milliseconds; slicing `audio[i : i + c]` yields the millisecond interval
  `[i, min (i + c) D)`.
* Exceptions are modelled with `Except Err`; the observable side effects of a
  run (chunk exports, temp-file removals, ffmpeg extraction, pydub conversion,
  whisper calls, output writes, error logging) are collected in an event trace.
-/

namespace Transcribe

/-- Errors the script can raise: `FileNotFoundError`, the `ValueError` for an
unsupported extension, the ffmpeg failure `Exception`, and an arbitrary error
raised by a transcription (whisper) call, tagged by the chunk it came from. -/
inductive Err where
  | fileNotFound : Err
  | unsupportedFormat : Err
  | extractionFailure : Err
  | engineFailure : Nat → Err
deriving DecidableEq, Repr

/-- `pyRangeGo stop step start` models Python `range(start, stop, step)` for a
positive `step` (the script always passes `chunk_length_ms`, and Python's
`range` rejects step 0): the list `start, start + step, ...` of values below
`stop`. -/
def pyRangeGo (stop step start : Nat) : List Nat :=
  if h : 0 < step ∧ start < stop then
    start :: pyRangeGo stop step (start + step)
  else
    []
termination_by stop - start
decreasing_by omega

/-- Python `range(0, stop, step)`. -/
def pyRange (stop step : Nat) : List Nat :=
  pyRangeGo stop step 0

/-- A chunk produced by slicing the audio: the interval
`[start, stop)` in milliseconds. -/
structure Seg where
  start : Nat
  stop : Nat
deriving DecidableEq, Repr

/-- `split_audio`, on an audio stream of duration `D` ms with chunk length
`C` ms: `[audio[i:i+C] for i in range(0, len(audio), C)]`, where the pydub
slice `audio[i:i+C]` is the interval `[i, min (i+C) D)`. -/
def split_audio (D C : Nat) : List Seg :=
  (pyRange D C).map (fun i => ⟨i, min (i + C) D⟩)

theorem pyRangeGo_eq (step : Nat) (hstep : 0 < step) :
    ∀ stop start, pyRangeGo stop step start =
      (List.range ((stop - start + step - 1) / step)).map (fun k => start + k * step) := by
  intro stop
  have H : ∀ n start, stop - start ≤ n → pyRangeGo stop step start =
      (List.range ((stop - start + step - 1) / step)).map (fun k => start + k * step) := by
    intro n
    induction n with
    | zero =>
      intro start h
      rw [pyRangeGo]
      have hns : ¬ (0 < step ∧ start < stop) := by omega
      rw [dif_neg hns]
      have : (stop - start + step - 1) / step = 0 := by
        apply Nat.div_eq_of_lt; omega
      rw [this]
      simp
    | succ n ih =>
      intro start h
      rw [pyRangeGo]
      by_cases hlt : start < stop
      · rw [dif_pos ⟨hstep, hlt⟩, ih (start + step) (by omega)]
        have hcount : (stop - start + step - 1) / step
            = (stop - (start + step) + step - 1) / step + 1 := by
          rcases le_or_lt (start + step) stop with hle | hgt
          · have h1 : stop - start + step - 1 = (stop - (start + step) + step - 1) + step := by
              omega
            rw [h1, Nat.add_div_right _ hstep]
          · have h1 : stop - (start + step) = 0 := by omega
            rw [h1]
            have h2 : (0 + step - 1) / step = 0 := by
              apply Nat.div_eq_of_lt; omega
            rw [h2]
            apply Nat.div_eq_of_lt_le
            · omega
            · omega
        rw [hcount, List.range_succ_eq_map]
        simp only [List.map_cons, List.map_map, Nat.zero_mul, Nat.add_zero]
        congr 1
        apply List.map_congr_left
        intro k _
        simp only [Function.comp_apply, Nat.succ_eq_add_one]
        ring
      · rw [dif_neg (by omega)]
        have : (stop - start + step - 1) / step = 0 := by
          apply Nat.div_eq_of_lt; omega
        rw [this]
        simp
  exact fun start => H (stop - start) start le_rfl

theorem pyRange_eq (stop step : Nat) (hstep : 0 < step) :
    pyRange stop step =
      (List.range ((stop + step - 1) / step)).map (fun k => k * step) := by
  rw [pyRange, pyRangeGo_eq step hstep stop 0]
  simp

theorem split_audio_length (D C : Nat) (hC : 0 < C) :
    (split_audio D C).length = (D + C - 1) / C := by
  rw [split_audio, pyRange_eq D C hC]
  simp

theorem split_audio_eq (D C : Nat) (hC : 0 < C) :
    split_audio D C = (List.range ((D + C - 1) / C)).map
      (fun i => ⟨i * C, min ((i + 1) * C) D⟩) := by
  rw [split_audio, pyRange_eq D C hC, List.map_map]
  apply List.map_congr_left
  intro k _
  simp only [Function.comp_apply]
  have h1 : k * C + C = (k + 1) * C := by ring
  rw [h1]

theorem split_audio_getElem (D C : Nat) (hC : 0 < C) (i : Nat)
    (h : i < (D + C - 1) / C) :
    (split_audio D C)[i]? = some ⟨i * C, min ((i + 1) * C) D⟩ := by
  rw [split_audio_eq D C hC, List.getElem?_map, List.getElem?_range h]
  rfl

theorem ceil_div_mul_ge (D C : Nat) (hC : 0 < C) : D ≤ (D + C - 1) / C * C := by
  have h1 : D + C - 1 < (D + C - 1) / C * C + C := Nat.lt_div_mul_add hC
  omega

theorem ceil_div_of_dvd (D C : Nat) (hC : 0 < C) (hdvd : C ∣ D) :
    (D + C - 1) / C = D / C := by
  obtain ⟨q, hq⟩ := hdvd
  subst hq
  have h1 : C * q + C - 1 = C * q + (C - 1) := by omega
  rw [h1, Nat.mul_add_div hC, Nat.div_eq_of_lt (by omega),
    Nat.mul_div_cancel_left _ hC]
  omega

theorem ceil_div_of_not_dvd (D C : Nat) (hC : 0 < C) (hdvd : ¬ C ∣ D) :
    (D + C - 1) / C = D / C + 1 := by
  have hdm := Nat.div_add_mod D C
  have hmod : D % C < C := Nat.mod_lt D hC
  have hpos : 0 < D % C := Nat.pos_of_ne_zero (fun h => hdvd (Nat.dvd_of_mod_eq_zero h))
  have h1 : D + C - 1 = C * (D / C) + (D % C + C - 1) := by omega
  rw [h1, Nat.mul_add_div hC]
  have h2 : (D % C + C - 1) / C = 1 := by
    apply Nat.div_eq_of_lt_le
    · omega
    · omega
  omega

/-- C1: for a source of duration `D` ms and positive chunk length `C` ms,
`split_audio` yields exactly `⌈D/C⌉` chunks; chunk `i` is the interval
`[i*C, min ((i+1)*C) D)`; each instant `t < D` lies in exactly the chunk of
index `t / C` (so the chunks partition `[0, D)` with no gaps or overlaps, in
increasing-offset order); every chunk but the last has length exactly `C`; the
last chunk ends at `D` and is shorter than `C` precisely when `C ∤ D`. -/
theorem C1_split_audio_partition (D C : Nat) (hC : 0 < C) :
    (split_audio D C).length = (D + C - 1) / C
    ∧ (∀ i, i < (D + C - 1) / C →
        (split_audio D C)[i]? = some ⟨i * C, min ((i + 1) * C) D⟩)
    ∧ (∀ t, t < D → ∀ i, i < (D + C - 1) / C →
        ((∃ s, (split_audio D C)[i]? = some s ∧ s.start ≤ t ∧ t < s.stop) ↔ i = t / C))
    ∧ (∀ i, i + 1 < (D + C - 1) / C →
        ∀ s, (split_audio D C)[i]? = some s → s.stop - s.start = C)
    ∧ (0 < D → ∀ s, (split_audio D C)[(D + C - 1) / C - 1]? = some s →
        s.stop = D ∧ (s.stop - s.start < C ↔ ¬ C ∣ D)) := by
  refine ⟨split_audio_length D C hC, fun i hi => split_audio_getElem D C hC i hi,
    ?_, ?_, ?_⟩
  · intro t ht i hi
    rw [split_audio_getElem D C hC i hi]
    constructor
    · rintro ⟨s, hs, h1, h2⟩
      obtain rfl : s = ⟨i * C, min ((i + 1) * C) D⟩ := by
        injection hs with h
        exact h.symm
      simp only at h1 h2
      have h3 : t < (i + 1) * C := lt_of_lt_of_le h2 (min_le_left _ _)
      exact (Nat.div_eq_of_lt_le h1 h3).symm
    · rintro rfl
      refine ⟨⟨t / C * C, min ((t / C + 1) * C) D⟩, rfl,
        Nat.div_mul_le_self t C, ?_⟩
      simp only [lt_min_iff]
      have hup : t < (t / C + 1) * C := by
        have h1 : t < t / C * C + C := Nat.lt_div_mul_add hC
        have h2 : (t / C + 1) * C = t / C * C + C := by ring
        omega
      exact ⟨hup, ht⟩
  · intro i hi s hs
    rw [split_audio_getElem D C hC i (by omega)] at hs
    obtain rfl : s = ⟨i * C, min ((i + 1) * C) D⟩ := by
      injection hs with h
      exact h.symm
    have h1 : i + 2 ≤ (D + C - 1) / C := hi
    have h2 : (i + 2) * C ≤ D + C - 1 := (Nat.le_div_iff_mul_le hC).mp h1
    have h3 : (i + 2) * C = (i + 1) * C + C := by ring
    have h4 : (i + 1) * C = i * C + C := by ring
    have h5 : (i + 1) * C ≤ D := by omega
    simp only [min_eq_left h5]
    omega
  · intro hD s hs
    set m := (D + C - 1) / C with hm
    have hm1 : 1 ≤ m := by
      rw [hm]
      rw [Nat.le_div_iff_mul_le hC]
      omega
    rw [split_audio_getElem D C hC (m - 1) (by omega)] at hs
    have hmsub : m - 1 + 1 = m := by omega
    rw [hmsub] at hs
    have hge : D ≤ m * C := ceil_div_mul_ge D C hC
    have hseq : s = ⟨(m - 1) * C, min (m * C) D⟩ := by
      injection hs with h
      exact h.symm
    have hstop : s.stop = D := by
      rw [hseq]
      exact min_eq_right hge
    have hstart : s.start = (m - 1) * C := by
      rw [hseq]
    refine ⟨hstop, ?_⟩
    rw [hstop, hstart]
    by_cases hdvd : C ∣ D
    · have hq : m = D / C := by
        rw [hm]
        exact ceil_div_of_dvd D C hC hdvd
      obtain ⟨q, hqe⟩ := hdvd
      have hqC : D / C = q := by
        rw [hqe]
        exact Nat.mul_div_cancel_left _ hC
      have hqpos : 1 ≤ q := by
        rcases Nat.eq_zero_or_pos q with h0 | h1
        · omega
        · exact h1
      have hmq : m = q := by omega
      have h6 : (m - 1) * C = m * C - C := Nat.sub_one_mul m C
      have h7 : m * C = C * q := by
        rw [hmq]; ring
      have h8 : C * 1 ≤ C * q := Nat.mul_le_mul_left C hqpos
      constructor
      · intro hlt
        exfalso
        omega
      · intro hcon
        exact absurd ⟨q, hqe⟩ hcon
    · have hq : m = D / C + 1 := by
        rw [hm]
        exact ceil_div_of_not_dvd D C hC hdvd
      have hdm := Nat.div_add_mod D C
      have hmod : D % C < C := Nat.mod_lt D hC
      have h6 : (m - 1) * C = D / C * C := by
        rw [hq]
        simp
      have h7 : D / C * C = C * (D / C) := by ring
      refine ⟨fun _ => hdvd, fun _ => ?_⟩
      omega

/-- C1 witness: the theorem applied at `D = 185000`, `C = 60000` yields the
concrete chunk count 4. -/
theorem C1_split_audio_partition_witness :
    (split_audio 185000 60000).length = (185000 + 60000 - 1) / 60000 :=
  (C1_split_audio_partition 185000 60000 (by decide)).1

/-- Python `str.strip()` on a string modelled as a list of characters: drop
trailing whitespace, then leading whitespace. -/
def pyStrip (s : List Char) : List Char :=
  ((s.reverse.dropWhile Char.isWhitespace).reverse).dropWhile Char.isWhitespace

/-- The temp file name of chunk `i`: `"temp_chunk_" + str(i) + ".mp3"`. -/
def chunkPath (i : Nat) : String := "temp_chunk_" ++ toString i ++ ".mp3"

/-- Observable side effects of a run of the script. -/
inductive Ev where
  | exportChunk : String → Ev
  | removeTemp : String → Ev
  | extractCall : String → String → Ev
  | convertCall : String → String → Ev
  | whisperCall : String → Ev
  | writeOutput : String → List Char → Ev
  | logged : Err → Ev
deriving DecidableEq, Repr

/-- The gather loop
`for future in futures: full_transcription += future.result() + " "`:
results are read in submission (= chunk-index) order and the first exception
encountered in that order propagates out of the loop. -/
def collectLoop (engine : Nat → Except Err (List Char)) :
    List Nat → List Char → Except Err (List Char)
  | [], acc => .ok acc
  | i :: rest, acc =>
    match engine i with
    | .error e => .error e
    | .ok t => collectLoop engine rest (acc ++ t ++ [' '])

/-- `transcribe_large_audio_parallel` on a file whose decoded audio lasts `D`
milliseconds, with `engine i` the result whisper returns for chunk `i`'s temp
file. The function splits with the default chunk length 60000 ms, exports one
temp file per chunk, gathers the futures' results in submission order, and —
only when no exception was raised — removes the temp files and returns the
stripped concatenation. There is no try/finally: on an exception the removal
loop is never reached. -/
def transcribe_large_audio_parallel (D : Nat)
    (engine : Nat → Except Err (List Char)) :
    List Ev × Except Err (List Char) :=
  let n := (split_audio D 60000).length
  let paths := (List.range n).map chunkPath
  match collectLoop engine (List.range n) [] with
  | .error e => (paths.map Ev.exportChunk, .error e)
  | .ok acc =>
      (paths.map Ev.exportChunk ++ paths.map Ev.removeTemp, .ok (pyStrip acc))

theorem tlap_snd (D : Nat) (engine : Nat → Except Err (List Char)) :
    (transcribe_large_audio_parallel D engine).2
      = Except.map pyStrip
          (collectLoop engine (List.range (split_audio D 60000).length) []) := by
  simp only [transcribe_large_audio_parallel]
  cases collectLoop engine (List.range (split_audio D 60000).length) [] <;> rfl

theorem tlap_fst (D : Nat) (engine : Nat → Except Err (List Char)) :
    (transcribe_large_audio_parallel D engine).1
      = ((List.range (split_audio D 60000).length).map chunkPath).map
          Ev.exportChunk
        ++ (match collectLoop engine
              (List.range (split_audio D 60000).length) [] with
            | .error _ => []
            | .ok _ => ((List.range (split_audio D 60000).length).map
                chunkPath).map Ev.removeTemp) := by
  simp only [transcribe_large_audio_parallel]
  cases collectLoop engine (List.range (split_audio D 60000).length) [] with
  | error e => simp
  | ok acc => rfl

theorem tlap_cases (D : Nat) (engine : Nat → Except Err (List Char)) :
    (∃ e, collectLoop engine (List.range (split_audio D 60000).length) []
        = .error e
      ∧ transcribe_large_audio_parallel D engine
        = (((List.range (split_audio D 60000).length).map chunkPath).map
            Ev.exportChunk, .error e))
    ∨ (∃ acc, collectLoop engine (List.range (split_audio D 60000).length) []
        = .ok acc
      ∧ transcribe_large_audio_parallel D engine
        = (((List.range (split_audio D 60000).length).map chunkPath).map
             Ev.exportChunk
           ++ ((List.range (split_audio D 60000).length).map chunkPath).map
             Ev.removeTemp,
           .ok (pyStrip acc))) := by
  simp only [transcribe_large_audio_parallel]
  cases hcl : collectLoop engine (List.range (split_audio D 60000).length) [] with
  | error e => exact Or.inl ⟨e, rfl, rfl⟩
  | ok acc => exact Or.inr ⟨acc, rfl, rfl⟩

/-- The list of futures with the tasks' completion order made explicit: the
pairs (chunk index, fragment) in the order the concurrent tasks finished. -/
def futuresTable (order : List Nat) (f : Nat → List Char) :
    List (Nat × List Char) :=
  order.map (fun i => (i, f i))

/-- `future.result()` for the future of chunk `i`: its fragment once task `i`
has completed (`none` models a task that never completes). -/
def awaitResult (table : List (Nat × List Char)) (i : Nat) :
    Option (List Char) :=
  (table.find? (fun p => p.1 == i)).map Prod.snd

/-- The gather loop run against an explicit completion table. -/
def gatherLoop (table : List (Nat × List Char)) :
    List Nat → List Char → Option (List Char)
  | [], acc => some acc
  | i :: rest, acc =>
    match awaitResult table i with
    | none => none
    | some t => gatherLoop table rest (acc ++ t ++ [' '])

/-- `transcribe_large_audio_parallel` with the completion order of the
concurrent transcription tasks as an explicit parameter: fragments become
available in the order `order`, the gather loop still reads them in
submission order. -/
def tlapScheduled (D : Nat) (f : Nat → List Char) (order : List Nat) :
    Option (List Char) :=
  (gatherLoop (futuresTable order f)
      (List.range (split_audio D 60000).length) []).map pyStrip

/-- The pure content of the gather loop when every chunk succeeds. -/
def joinLoop (f : Nat → List Char) (idxs : List Nat) (acc : List Char) :
    List Char :=
  idxs.foldl (fun a i => a ++ f i ++ [' ']) acc

theorem awaitResult_futuresTable (order : List Nat) (f : Nat → List Char)
    (i : Nat) (h : i ∈ order) :
    awaitResult (futuresTable order f) i = some (f i) := by
  induction order with
  | nil => cases h
  | cons a rest ih =>
    rw [futuresTable, List.map_cons, awaitResult, List.find?_cons]
    by_cases hai : a = i
    · subst hai
      simp
    · have hba : ((a, f a).1 == i) = false := by
        simp [hai]
      rw [hba]
      have hmem : i ∈ rest := by
        cases h with
        | head => exact absurd rfl hai
        | tail _ h2 => exact h2
      exact ih hmem

theorem gatherLoop_eq_joinLoop (table : List (Nat × List Char))
    (f : Nat → List Char) (idxs : List Nat)
    (h : ∀ i ∈ idxs, awaitResult table i = some (f i)) :
    ∀ acc, gatherLoop table idxs acc = some (joinLoop f idxs acc) := by
  induction idxs with
  | nil => intro acc; rfl
  | cons i rest ih =>
    intro acc
    rw [gatherLoop, h i (List.mem_cons_self i rest), joinLoop, List.foldl_cons]
    exact ih (fun k hk => h k (List.mem_cons_of_mem i hk)) _

theorem collectLoop_ok (f : Nat → List Char) (idxs : List Nat) :
    ∀ acc, collectLoop (fun i => .ok (f i)) idxs acc
      = .ok (joinLoop f idxs acc) := by
  induction idxs with
  | nil => intro acc; rfl
  | cons i rest ih =>
    intro acc
    rw [collectLoop, joinLoop, List.foldl_cons]
    exact ih _

/-- C2: with each chunk's fragment fixed by its ordinal index, the transcript
is the same under every permutation of the order in which the concurrent
tasks complete, and it is exactly the transcript
`transcribe_large_audio_parallel` returns: assembly depends only on the
index-to-fragment mapping, never on completion order. -/
theorem C2_completion_order_invariant (D : Nat) (f : Nat → List Char)
    (o₁ o₂ : List Nat)
    (h₁ : o₁.Perm (List.range (split_audio D 60000).length))
    (h₂ : o₂.Perm (List.range (split_audio D 60000).length)) :
    tlapScheduled D f o₁ = tlapScheduled D f o₂
    ∧ ∃ t, tlapScheduled D f o₁ = some t
        ∧ (transcribe_large_audio_parallel D (fun i => .ok (f i))).2
            = .ok t := by
  have key : ∀ o : List Nat,
      o.Perm (List.range (split_audio D 60000).length) →
      tlapScheduled D f o = some (pyStrip
        (joinLoop f (List.range (split_audio D 60000).length) [])) := by
    intro o ho
    rw [tlapScheduled, gatherLoop_eq_joinLoop _ f _
      (fun i hi => awaitResult_futuresTable o f i (ho.mem_iff.mpr hi)) []]
    rfl
  refine ⟨(key o₁ h₁).trans (key o₂ h₂).symm, _, key o₁ h₁, ?_⟩
  simp only [transcribe_large_audio_parallel]
  rw [collectLoop_ok f]

/-- C2 witness: a two-chunk source, completion orders `[1, 0]` and `[0, 1]`. -/
theorem C2_completion_order_invariant_witness :
    tlapScheduled 120000 (fun i => if i = 0 then ['a'] else ['b']) [1, 0]
      = tlapScheduled 120000 (fun i => if i = 0 then ['a'] else ['b'])
          [0, 1] := by
  have hlen : (split_audio 120000 60000).length = 2 := by
    rw [split_audio_length 120000 60000 (by decide)]
  refine (C2_completion_order_invariant 120000 _ [1, 0] [0, 1] ?_ ?_).1 <;>
    · rw [hlen]
      decide

/-- C7: on a zero-duration source, `split_audio` returns no chunks (for every
chunk length, the default 60000 included) and `transcribe_large_audio_parallel`
performs no calls and returns the empty transcript rather than an error. -/
theorem C7_zero_duration (C : Nat) (engine : Nat → Except Err (List Char)) :
    split_audio 0 C = []
    ∧ transcribe_large_audio_parallel 0 engine = ([], .ok []) := by
  have h0 : ∀ c, split_audio 0 c = [] := by
    intro c
    rw [split_audio, pyRange, pyRangeGo]
    simp
  refine ⟨h0 C, ?_⟩
  simp only [transcribe_large_audio_parallel, h0 60000]
  rfl

/-- Does an event remove a temp chunk file? -/
def isRemoveEv : Ev → Bool
  | .removeTemp _ => true
  | _ => false

/-- An engine whose chunk 1 raises while every other chunk succeeds. -/
def failAt1Engine : Nat → Except Err (List Char) :=
  fun i => if i = 1 then .error (.engineFailure 1) else .ok ['o', 'k']

/-- C3 counterexample: a 185000 ms source splits into 4 chunks; chunk 1's
transcription raises; the exception propagates and the run's trace contains
not a single temp-file removal — cleanup is skipped entirely on the failure
path (there is no try/finally around the gather loop). -/
theorem C3_counterexample :
    (transcribe_large_audio_parallel 185000 failAt1Engine).2
        = .error (.engineFailure 1)
    ∧ ((transcribe_large_audio_parallel 185000 failAt1Engine).1.filter
        isRemoveEv) = [] := by
  have h : (split_audio 185000 60000).length = 4 := by
    rw [split_audio_length 185000 60000 (by decide)]
  have hcol : collectLoop failAt1Engine (List.range 4) []
      = .error (.engineFailure 1) := by
    rfl
  constructor
  · rw [tlap_snd, h, hcol]
    rfl
  · rw [tlap_fst, h, hcol]
    rfl

/-- C3 amended: temp-chunk cleanup runs exactly on the success path. If any
segment's transcription raises, no temp file at all is removed; when all
segments succeed, every chunk's temp file is removed. -/
theorem C3_cleanup_only_on_success (D : Nat)
    (engine : Nat → Except Err (List Char)) :
    ((∃ e, (transcribe_large_audio_parallel D engine).2 = .error e) →
      ((transcribe_large_audio_parallel D engine).1.filter isRemoveEv) = [])
    ∧ ((∃ t, (transcribe_large_audio_parallel D engine).2 = .ok t) →
      ((transcribe_large_audio_parallel D engine).1.filter isRemoveEv)
        = ((List.range (split_audio D 60000).length).map chunkPath).map
            Ev.removeTemp) := by
  have hexp : ∀ ps : List String,
      (ps.map Ev.exportChunk).filter isRemoveEv = [] := by
    intro ps
    induction ps with
    | nil => rfl
    | cons p rest ih => simp [List.filter, isRemoveEv, ih]
  have hrem : ∀ ps : List String,
      (ps.map Ev.removeTemp).filter isRemoveEv = ps.map Ev.removeTemp := by
    intro ps
    induction ps with
    | nil => rfl
    | cons p rest ih => simp [List.filter, isRemoveEv, ih]
  have hfl : ∀ ps : List String,
      ((ps.map Ev.exportChunk ++ ps.map Ev.removeTemp).filter isRemoveEv)
        = ps.map Ev.removeTemp := by
    intro ps
    rw [List.filter_append, hexp, hrem]
    rfl
  rcases tlap_cases D engine with ⟨e, hcl, htl⟩ | ⟨acc, hcl, htl⟩
  · rw [htl]
    refine ⟨fun _ => hexp _, ?_⟩
    rintro ⟨t, ht⟩
    exact absurd ht (by simp)
  · rw [htl]
    refine ⟨?_, fun _ => hfl _⟩
    rintro ⟨e, he⟩
    exact absurd he (by simp)

/-- An engine that succeeds on every chunk. -/
def okEngine : Nat → Except Err (List Char) := fun _ => .ok ['o', 'k']

/-- C3 amended witness: a one-chunk success run removes its temp file. -/
theorem C3_cleanup_only_on_success_witness :
    ((transcribe_large_audio_parallel 60000 okEngine).1.filter isRemoveEv)
      = ((List.range (split_audio 60000 60000).length).map chunkPath).map
          Ev.removeTemp := by
  apply (C3_cleanup_only_on_success 60000 okEngine).2
  have h : (split_audio 60000 60000).length = 1 := by
    rw [split_audio_length 60000 60000 (by decide)]
  have hcol : collectLoop okEngine (List.range 1) []
      = .ok ['o', 'k', ' '] := by
    rfl
  refine ⟨['o', 'k'], ?_⟩
  rw [tlap_snd, h, hcol]
  rfl

theorem collectLoop_append_error (engine : Nat → Except Err (List Char))
    (j : Nat) (e : Err) (hfail : engine j = .error e) :
    ∀ (l₁ l₂ : List Nat) (acc : List Char),
      (∀ k ∈ l₁, ∃ t, engine k = .ok t) →
      collectLoop engine (l₁ ++ j :: l₂) acc = .error e := by
  intro l₁
  induction l₁ with
  | nil =>
    intro l₂ acc _
    rw [List.nil_append, collectLoop, hfail]
  | cons a rest ih =>
    intro l₂ acc hok
    obtain ⟨t, ht⟩ := hok a (List.mem_cons_self a rest)
    rw [List.cons_append, collectLoop, ht]
    exact ih l₂ _ (fun k hk => hok k (List.mem_cons_of_mem a hk))

theorem range_split_at (n j : Nat) (hj : j < n) :
    List.range n
      = List.range j ++ j ::
          ((List.range (n - j - 1)).map (fun k => j + (k + 1))) := by
  have hn : n = j + (n - j - 1 + 1) := by omega
  rw [hn, List.range_add, List.range_succ_eq_map]
  simp only [List.map_cons, Nat.add_zero, List.map_map]
  have hcong : ∀ A B : List Nat,
      A = B → List.range j ++ j :: A = List.range j ++ j :: B := by
    intro A B hab
    rw [hab]
  apply hcong
  have h2 : j + (n - j - 1 + 1) - j - 1 = n - j - 1 := by omega
  rw [h2]
  apply List.map_congr_left
  intro k _
  simp [Function.comp, Nat.succ_eq_add_one]

/-- `Path(...).name` of a path string: the part after the last slash. -/
def pathNameList (l : List Char) : List Char :=
  (l.reverse.takeWhile (fun c => c != '/')).reverse

/-- CPython `PurePath.suffix`: the final component's extension — the substring
from its last dot — unless that dot is the component's first or last
character, in which case the suffix is empty. -/
def pathSuffixList (l : List Char) : List Char :=
  let r := (pathNameList l).reverse
  let ext := r.takeWhile (fun c => c != '.')
  if ext.length = r.length then []
  else if ext.length = 0 then []
  else if ext.length + 1 = r.length then []
  else '.' :: ext.reverse

/-- `Path(file_path).suffix.lower()`. -/
def suffixLower (s : String) : String :=
  String.mk ((pathSuffixList s.data).map Char.toLower)

/-- `s.rsplit('.', 1)[0]`: everything before the last dot; the whole string
when there is no dot. -/
def rsplitStemList (l : List Char) : List Char :=
  match l.reverse.dropWhile (fun c => c != '.') with
  | [] => l
  | _ :: rest => rest.reverse

def rsplitStem (s : String) : String := String.mk (rsplitStemList s.data)

/-- Python `str.replace(pat, rep)` for nonempty `pat`: replace every
non-overlapping occurrence, scanning left to right. The fuel argument (the
string's length at the top call) only drives the recursion. -/
def replaceGo (pat rep : List Char) : Nat → List Char → List Char
  | _, [] => []
  | 0, l => l
  | fuel + 1, c :: rest =>
    if pat ≠ [] ∧ pat.isPrefixOf (c :: rest) then
      rep ++ replaceGo pat rep fuel (rest.drop (pat.length - 1))
    else
      c :: replaceGo pat rep fuel rest

/-- `s.replace(pat, rep)`. -/
def replaceStr (s pat rep : String) : String :=
  String.mk (replaceGo pat.data rep.data s.data.length s.data)

/-- The environment of one run: what `os.path.exists` and `os.path.getsize`
report for the input path, the duration of the audio pydub decodes from it,
the result whisper returns for each chunk's temp file on the chunked path,
the result whisper returns on the single-shot path, and whether the ffmpeg
invocation exits with code 0. -/
structure World where
  pathExists : Bool
  sizeBytes : Nat
  durationMs : Nat
  engine : Nat → Except Err (List Char)
  single : Except Err (List Char)
  extractOk : Bool

/-- `is_large_file`:
`os.path.getsize(file_path) / (1024 * 1024) > size_threshold_mb`. The Python
division is float division, but dividing a file size below 2^53 by the power
of two 2^20 is exact in IEEE double precision, so the comparison coincides
with the exact rational (equivalently integer) comparison modelled here. -/
def is_large_file (sizeBytes thresholdMb : Nat) : Bool :=
  thresholdMb * (1024 * 1024) < sizeBytes

/-- The accepted extension list of `validate_file_path`. -/
def acceptedExts : List String := [".mp3", ".mp4", ".wav", ".flac"]

/-- `validate_file_path`: `FileNotFoundError` when the path does not exist,
`ValueError` when the lower-cased suffix is not an accepted extension. -/
def validate_file_path (filePath : String) (pathExists : Bool) :
    Except Err Unit :=
  if !pathExists then .error .fileNotFound
  else if !(acceptedExts.contains (suffixLower filePath)) then
    .error .unsupportedFormat
  else .ok ()

/-- The tail of the single-shot path: `transcribe_audio(fp)` followed (on
success) by the output write to `fp.rsplit('.', 1)[0] + '_transcription.txt'`;
`pre` holds the events of the steps already taken. -/
def singleShotTail (fp : String) (w : World) (pre : List Ev) :
    List Ev × Except Err Unit :=
  match w.single with
  | .error e => (pre ++ [.whisperCall fp], .error e)
  | .ok t => (pre ++ [.whisperCall fp,
      .writeOutput (rsplitStem fp ++ "_transcription.txt") t], .ok ())

/-- The body of `main`'s try block, after the prompt: validation, the
large-file test, then either the chunked-parallel path on the original file
or the single-shot path (mp4 extraction, wav/flac conversion to mp3, one
whisper call), and finally the output write. -/
def mainBody (path : String) (w : World) : List Ev × Except Err Unit :=
  match validate_file_path path w.pathExists with
  | .error e => ([], .error e)
  | .ok _ =>
    if is_large_file w.sizeBytes 100 then
      match transcribe_large_audio_parallel w.durationMs w.engine with
      | (evs, .error e) => (evs, .error e)
      | (evs, .ok t) =>
          (evs ++ [.writeOutput (rsplitStem path ++ "_transcription.txt") t],
           .ok ())
    else
      let ext := suffixLower path
      if ext = ".mp4" then
        let temp := replaceStr path ".mp4" "_temp.mp3"
        if w.extractOk then
          singleShotTail temp w [.extractCall path temp]
        else ([.extractCall path temp], .error .extractionFailure)
      else if ext = ".mp3" then
        singleShotTail path w []
      else
        let conv := rsplitStem path ++ ".mp3"
        singleShotTail conv w [.convertCall path conv]

/-- `main`: run the body; any exception is caught at the entry point and
logged. The value is the trace of the whole run. -/
def mainRun (path : String) (w : World) : List Ev :=
  match mainBody path w with
  | (evs, .ok _) => evs
  | (evs, .error e) => evs ++ [.logged e]

theorem collectLoop_range_first_error (engine : Nat → Except Err (List Char))
    (n j : Nat) (e : Err) (hj : j < n) (hfail : engine j = .error e)
    (hpre : ∀ k, k < j → ∃ t, engine k = .ok t) :
    collectLoop engine (List.range n) [] = .error e := by
  rw [range_split_at n j hj]
  exact collectLoop_append_error engine j e hfail _ _ []
    (fun k hk => hpre k (List.mem_range.mp hk))

/-- C4: in a valid large-file run, if chunk `j` is the lowest-ordinal failing
segment, then its error — not any later segment's — propagates out of
`transcribe_large_audio_parallel` without consulting the later results, is
caught and logged at the entry point, and the run writes no output file. -/
theorem C4_first_failure_aborts (path : String) (w : World) (j : Nat)
    (e : Err)
    (hval : validate_file_path path w.pathExists = .ok ())
    (hlarge : is_large_file w.sizeBytes 100 = true)
    (hj : j < (split_audio w.durationMs 60000).length)
    (hfail : w.engine j = .error e)
    (hpre : ∀ k, k < j → ∃ t, w.engine k = .ok t) :
    (transcribe_large_audio_parallel w.durationMs w.engine).2 = .error e
    ∧ (∀ p t, Ev.writeOutput p t ∉ mainRun path w)
    ∧ mainRun path w
        = (transcribe_large_audio_parallel w.durationMs w.engine).1
            ++ [.logged e] := by
  have hcol : collectLoop w.engine
      (List.range (split_audio w.durationMs 60000).length) [] = .error e :=
    collectLoop_range_first_error w.engine _ j e hj hfail hpre
  have hsnd : (transcribe_large_audio_parallel w.durationMs w.engine).2
      = .error e := by
    rw [tlap_snd, hcol]
    rfl
  have hbody : mainBody path w
      = ((transcribe_large_audio_parallel w.durationMs w.engine).1,
         .error e) := by
    rw [mainBody, hval]
    simp only [hlarge, if_true]
    rcases htl : transcribe_large_audio_parallel w.durationMs w.engine
      with ⟨evs, r⟩
    have hr : r = .error e := by
      rw [htl] at hsnd
      exact hsnd
    subst hr
    rfl
  have hmain : mainRun path w
      = (transcribe_large_audio_parallel w.durationMs w.engine).1
          ++ [.logged e] := by
    rw [mainRun, hbody]
  refine ⟨hsnd, ?_, hmain⟩
  intro p t hmem
  rw [hmain, tlap_fst] at hmem
  rcases List.mem_append.mp hmem with h1 | h2
  · rcases List.mem_append.mp h1 with h3 | h4
    · obtain ⟨q, _, hq⟩ := List.mem_map.mp h3
      exact Ev.noConfusion hq
    · rw [hcol] at h4
      simp at h4
  · simp at h2

/-- The world of the C4 witness: an existing 102 MB mp3 whose audio lasts
185000 ms, transcribed with the engine that fails on chunk 1. -/
def w4 : World := ⟨true, 106954752, 185000, failAt1Engine, .ok ['x'], true⟩

/-- C4 witness: the concrete failing run logs chunk 1's error. -/
theorem C4_first_failure_aborts_witness :
    Ev.logged (.engineFailure 1) ∈ mainRun "talk.mp3" w4 := by
  have h := C4_first_failure_aborts "talk.mp3" w4 1 (.engineFailure 1)
    (by rfl) (by rfl)
    (by show 1 < (split_audio 185000 60000).length
        rw [split_audio_length 185000 60000 (by decide)]
        decide)
    (by rfl)
    (by intro k hk
        have hk0 : k = 0 := by omega
        subst hk0
        exact ⟨['o', 'k'], rfl⟩)
  rw [h.2.2]
  simp

/-- The spec's Transcript: the fragments joined with a single separating
space. Reference definition written from the spec's words, to be compared
with the code's accumulate-then-strip loop. -/
def joinWithSpace : List (List Char) → List Char
  | [] => []
  | [t] => t
  | t :: rest => t ++ [' '] ++ joinWithSpace rest

/-- The spec's Transcript: join with single spaces, then trim. -/
def transcriptSpec (frags : List (List Char)) : List Char :=
  pyStrip (joinWithSpace frags)

theorem map_getD_range (l : List (List Char)) :
    (List.range l.length).map (fun i => l.getD i []) = l := by
  apply List.ext_getElem
  · simp
  · intro i h1 h2
    simp only [List.getElem_map, List.getElem_range,
      List.getD_eq_getElem?_getD, List.getElem?_eq_getElem h2,
      Option.getD_some]

theorem foldl_append_space (frags : List (List Char)) :
    ∀ acc, List.foldl (fun a t => a ++ t ++ [' ']) acc frags
      = acc ++ (frags.map (fun t => t ++ [' '])).flatten := by
  induction frags with
  | nil =>
    intro acc
    simp
  | cons hd rest ih =>
    intro acc
    rw [List.foldl_cons, ih, List.map_cons, List.flatten_cons]
    simp [List.append_assoc]

theorem joinWithSpace_cons_cons (t b : List Char) (bs : List (List Char)) :
    joinWithSpace (t :: b :: bs) = t ++ [' '] ++ joinWithSpace (b :: bs) :=
  rfl

theorem join_map_space_eq (frags : List (List Char)) (hne : frags ≠ []) :
    (frags.map (fun t => t ++ [' '])).flatten = joinWithSpace frags ++ [' '] := by
  induction frags with
  | nil => exact absurd rfl hne
  | cons hd rest ih =>
    cases rest with
    | nil => simp [joinWithSpace]
    | cons b bs =>
      rw [List.map_cons, List.flatten_cons, ih (by simp),
        joinWithSpace_cons_cons]
      simp [List.append_assoc]

theorem pyStrip_append_space (l : List Char) :
    pyStrip (l ++ [' ']) = pyStrip l := by
  have hws : (' ' : Char).isWhitespace = true := rfl
  rw [pyStrip, pyStrip, List.reverse_append]
  simp [List.dropWhile_cons, hws]

theorem joinLoop_getD (frags : List (List Char)) :
    joinLoop (fun i => frags.getD i []) (List.range frags.length) []
      = (frags.map (fun t => t ++ [' '])).flatten := by
  have h1 := List.foldl_map (fun i => frags.getD i [])
    (fun a t : List Char => a ++ t ++ [' ']) (List.range frags.length)
    ([] : List Char)
  rw [map_getD_range frags] at h1
  calc joinLoop (fun i => frags.getD i []) (List.range frags.length) []
      = List.foldl (fun a t : List Char => a ++ t ++ [' ']) [] frags :=
        h1.symm
    _ = [] ++ (frags.map (fun t => t ++ [' '])).flatten :=
        foldl_append_space frags []
    _ = (frags.map (fun t => t ++ [' '])).flatten := by simp

/-- C5: when every chunk succeeds with the fragment of its ordinal index, the
loop `full_transcription += fragment + " "` followed by `.strip()` returns
exactly the spec's Transcript: the fragments joined with a single separating
space and trimmed of leading and trailing whitespace. -/
theorem C5_loop_equals_join (D : Nat) (frags : List (List Char))
    (hn : (split_audio D 60000).length = frags.length) :
    (transcribe_large_audio_parallel D (fun i => .ok (frags.getD i []))).2
      = .ok (transcriptSpec frags) := by
  rw [tlap_snd, hn, collectLoop_ok (fun i => frags.getD i [])]
  have hj : pyStrip (joinLoop (fun i => frags.getD i [])
      (List.range frags.length) []) = transcriptSpec frags := by
    rw [joinLoop_getD]
    cases frags with
    | nil => rfl
    | cons hd rest =>
      rw [join_map_space_eq _ (by simp), pyStrip_append_space]
      rfl
  show Except.map pyStrip (.ok (joinLoop (fun i => frags.getD i [])
      (List.range frags.length) [])) = .ok (transcriptSpec frags)
  simp only [Except.map, hj]

/-- C5 witness: two fragments. -/
theorem C5_loop_equals_join_witness :
    (transcribe_large_audio_parallel 120000
        (fun i => .ok (([['a'], ['b']] : List (List Char)).getD i []))).2
      = .ok (transcriptSpec [['a'], ['b']]) :=
  C5_loop_equals_join 120000 [['a'], ['b']]
    (by rw [split_audio_length 120000 60000 (by decide)]
        rfl)

theorem filter_map_const_false {α : Type} (p : Ev → Bool) (f : α → Ev)
    (hf : ∀ a, p (f a) = false) (ps : List α) : (ps.map f).filter p = [] := by
  induction ps with
  | nil => rfl
  | cons a rest ih => simp [List.filter, hf, ih]

/-- Does an event write the output transcription file? -/
def isWriteEv : Ev → Bool
  | .writeOutput _ _ => true
  | _ => false

theorem rsplitStemList_append_mp3 (l : List Char) :
    rsplitStemList (l ++ ['.', 'm', 'p', '3']) = l := by
  rw [rsplitStemList]
  have h1 : (l ++ ['.', 'm', 'p', '3']).reverse
      = '3' :: 'p' :: 'm' :: '.' :: l.reverse := by
    simp
  rw [h1]
  have h2 : List.dropWhile (fun c => c != '.')
      ('3' :: 'p' :: 'm' :: '.' :: l.reverse) = '.' :: l.reverse := rfl
  rw [h2]
  simp

theorem rsplitStem_rsplitStem_mp3 (s : String) :
    rsplitStem (rsplitStem s ++ ".mp3") = rsplitStem s := by
  have hdata : (rsplitStem s ++ ".mp3").data
      = rsplitStemList s.data ++ ['.', 'm', 'p', '3'] := by
    rw [String.data_append]
    rfl
  show String.mk (rsplitStemList (rsplitStem s ++ ".mp3").data) = rsplitStem s
  rw [hdata, rsplitStemList_append_mp3]
  rfl

theorem singleShotTail_ok (fp : String) (w : World) (pre : List Ev)
    (t : List Char) (hs : w.single = .ok t) :
    singleShotTail fp w pre
      = (pre ++ [.whisperCall fp,
          .writeOutput (rsplitStem fp ++ "_transcription.txt") t], .ok ()) := by
  rw [singleShotTail, hs]

theorem singleShotTail_error (fp : String) (w : World) (pre : List Ev)
    (e : Err) (hs : w.single = .error e) :
    singleShotTail fp w pre = (pre ++ [.whisperCall fp], .error e) := by
  rw [singleShotTail, hs]

theorem singleShotTail_whisper (fp : String) (w : World) (pre : List Ev) :
    Ev.whisperCall fp ∈ (singleShotTail fp w pre).1 := by
  rw [singleShotTail]
  cases w.single <;> simp

theorem mainRun_mem_of_body (path : String) (w : World) (ev : Ev)
    (h : ev ∈ (mainBody path w).1) : ev ∈ mainRun path w := by
  rw [mainRun]
  rcases hb : mainBody path w with ⟨evs, r⟩
  rw [hb] at h
  cases r with
  | error e => exact List.mem_append_left _ h
  | ok t => exact h

theorem mainBody_large (path : String) (w : World)
    (hval : validate_file_path path w.pathExists = .ok ())
    (hlarge : is_large_file w.sizeBytes 100 = true) :
    mainBody path w
      = (match transcribe_large_audio_parallel w.durationMs w.engine with
         | (evs, .error e) => (evs, .error e)
         | (evs, .ok t) =>
             (evs ++ [.writeOutput (rsplitStem path ++ "_transcription.txt") t],
              .ok ())) := by
  rw [mainBody, hval]
  simp only [hlarge, if_true]

theorem mainBody_small_mp4 (path : String) (w : World)
    (hval : validate_file_path path w.pathExists = .ok ())
    (hlarge : is_large_file w.sizeBytes 100 = false)
    (hm4 : suffixLower path = ".mp4") (hex : w.extractOk = true) :
    mainBody path w
      = singleShotTail (replaceStr path ".mp4" "_temp.mp3") w
          [.extractCall path (replaceStr path ".mp4" "_temp.mp3")] := by
  rw [mainBody, hval]
  simp only [hlarge, Bool.false_eq_true, if_false, hm4, if_pos, hex, if_true]

theorem mainBody_small_mp4_extractfail (path : String) (w : World)
    (hval : validate_file_path path w.pathExists = .ok ())
    (hlarge : is_large_file w.sizeBytes 100 = false)
    (hm4 : suffixLower path = ".mp4") (hex : w.extractOk = false) :
    mainBody path w
      = ([.extractCall path (replaceStr path ".mp4" "_temp.mp3")],
         .error .extractionFailure) := by
  rw [mainBody, hval]
  simp only [hlarge, Bool.false_eq_true, if_false, hm4, if_pos, hex]

theorem mainBody_small_mp3 (path : String) (w : World)
    (hval : validate_file_path path w.pathExists = .ok ())
    (hlarge : is_large_file w.sizeBytes 100 = false)
    (hm3 : suffixLower path = ".mp3") :
    mainBody path w = singleShotTail path w [] := by
  rw [mainBody, hval]
  have hne : suffixLower path ≠ ".mp4" := by
    rw [hm3]
    decide
  simp only [hlarge, Bool.false_eq_true, if_false, hm3, if_pos, if_neg hne]
  rw [if_neg (by decide : (".mp3" : String) ≠ ".mp4")]

theorem mainBody_small_conv (path : String) (w : World)
    (hval : validate_file_path path w.pathExists = .ok ())
    (hlarge : is_large_file w.sizeBytes 100 = false)
    (hm4 : suffixLower path ≠ ".mp4") (hm3 : suffixLower path ≠ ".mp3") :
    mainBody path w
      = singleShotTail (rsplitStem path ++ ".mp3") w
          [.convertCall path (rsplitStem path ++ ".mp3")] := by
  rw [mainBody, hval]
  simp only [hlarge, Bool.false_eq_true, if_false, if_neg hm4, if_neg hm3]

/-- C8: validation. `FileNotFoundError` exactly when the input path does not
exist; the unsupported-format `ValueError` exactly when the path exists and
its lower-cased extension is not one of `.mp3`, `.mp4`, `.wav`, `.flac`;
success otherwise. A validation error aborts the run before any processing:
the whole trace is the single logged error — no extraction, conversion,
chunk export, transcription call, removal or output write happens. -/
theorem C8_validation (path : String) (w : World) :
    (w.pathExists = false ↔
      validate_file_path path w.pathExists = .error .fileNotFound)
    ∧ ((w.pathExists = true ∧ suffixLower path ∉ acceptedExts) ↔
      validate_file_path path w.pathExists = .error .unsupportedFormat)
    ∧ ((w.pathExists = true ∧ suffixLower path ∈ acceptedExts) ↔
      validate_file_path path w.pathExists = .ok ())
    ∧ (∀ e, validate_file_path path w.pathExists = .error e →
      mainRun path w = [.logged e]) := by
  have hmem : (acceptedExts.contains (suffixLower path) = true)
      ↔ suffixLower path ∈ acceptedExts := by
    constructor
    · intro h
      exact List.mem_of_elem_eq_true h
    · intro h
      exact List.elem_eq_true_of_mem h
  cases hpe : w.pathExists with
  | false =>
    have hv : validate_file_path path false = .error .fileNotFound := rfl
    refine ⟨by simp [hv], by simp [hv], by simp [hv], ?_⟩
    intro e he
    rw [hv] at he
    injection he with he2
    rw [mainRun, mainBody, hpe, hv, ← he2]
    rfl
  | true =>
    cases hct : acceptedExts.contains (suffixLower path) with
    | true =>
      have hin : suffixLower path ∈ acceptedExts := hmem.mp hct
      have hv : validate_file_path path true = .ok () := by
        rw [validate_file_path, hct]
        rfl
      refine ⟨by simp [hv], by simp [hv, hin], by simp [hv, hin], ?_⟩
      intro e he
      rw [hv] at he
      cases he
    | false =>
      have hnin : suffixLower path ∉ acceptedExts := by
        intro hc
        rw [hmem.mpr hc] at hct
        cases hct
      have hv : validate_file_path path true
          = .error .unsupportedFormat := by
        rw [validate_file_path, hct]
        rfl
      refine ⟨by simp [hv], by simp [hv, hnin], by simp [hv, hnin], ?_⟩
      intro e he
      rw [hv] at he
      injection he with he2
      rw [mainRun, mainBody, hpe, hv, ← he2]
      rfl

/-- The world of the C8 witness: `notes.txt` exists. -/
def w8 : World := ⟨true, 0, 0, fun _ => .ok [], .ok [], true⟩

/-- C8 witness: the rejected input `notes.txt` produces a run whose whole
trace is the logged unsupported-format error. -/
theorem C8_validation_witness :
    mainRun "notes.txt" w8 = [.logged .unsupportedFormat] :=
  (C8_validation "notes.txt" w8).2.2.2 .unsupportedFormat rfl

/-- Every event of a valid chunked-path (large-file) run is a chunk export, a
temp-file removal, the output write, or the logged error. -/
theorem mainRun_large_events (path : String) (w : World)
    (hval : validate_file_path path w.pathExists = .ok ())
    (hlarge : is_large_file w.sizeBytes 100 = true) (ev : Ev)
    (hmem : ev ∈ mainRun path w) :
    (∃ p, ev = .exportChunk p) ∨ (∃ p, ev = .removeTemp p)
    ∨ (∃ p t, ev = .writeOutput p t) ∨ (∃ e, ev = .logged e) := by
  have hb := mainBody_large path w hval hlarge
  rcases tlap_cases w.durationMs w.engine with ⟨e, hcl, htl⟩ | ⟨acc, hcl, htl⟩
  · rw [htl] at hb
    rw [mainRun, hb] at hmem
    rcases List.mem_append.mp hmem with h1 | h2
    · obtain ⟨q, _, hq⟩ := List.mem_map.mp h1
      exact Or.inl ⟨q, hq.symm⟩
    · rw [List.mem_singleton] at h2
      exact Or.inr (Or.inr (Or.inr ⟨e, h2⟩))
  · rw [htl] at hb
    rw [mainRun, hb] at hmem
    rcases List.mem_append.mp hmem with h1 | h2
    · rcases List.mem_append.mp h1 with h3 | h4
      · obtain ⟨q, _, hq⟩ := List.mem_map.mp h3
        exact Or.inl ⟨q, hq.symm⟩
      · obtain ⟨q, _, hq⟩ := List.mem_map.mp h4
        exact Or.inr (Or.inl ⟨q, hq.symm⟩)
    · rw [List.mem_singleton] at h2
      exact Or.inr (Or.inr (Or.inl ⟨_, _, h2⟩))

/-- C9: the chunked-parallel path is taken exactly when the file's size in
megabytes — bytes divided by 2^20, a division that is exact in IEEE doubles
for any realistic size, modelled by the exact rational quotient — strictly
exceeds the 100 MB threshold; a file of exactly 100 MB stays on the
single-shot path. Concretely: in a valid run, a large size means no
single-shot whisper call appears in the trace, and a non-large size (with
ffmpeg succeeding) means one does. -/
theorem C9_size_threshold (path : String) (w : World)
    (hval : validate_file_path path w.pathExists = .ok ())
    (hex : w.extractOk = true) :
    (is_large_file w.sizeBytes 100 = true
      ↔ (100 : ℚ) < (w.sizeBytes : ℚ) / 1048576)
    ∧ is_large_file (100 * 1024 * 1024) 100 = false
    ∧ (is_large_file w.sizeBytes 100 = true →
        ∀ p, Ev.whisperCall p ∉ mainRun path w)
    ∧ (is_large_file w.sizeBytes 100 = false →
        ∃ p, Ev.whisperCall p ∈ mainRun path w) := by
  refine ⟨?_, rfl, ?_, ?_⟩
  · rw [is_large_file, decide_eq_true_iff,
      lt_div_iff (by norm_num : (0 : ℚ) < 1048576)]
    norm_cast
  · intro hlarge p hmem
    rcases mainRun_large_events path w hval hlarge _ hmem with
      ⟨q, hq⟩ | ⟨q, hq⟩ | ⟨q, t, hq⟩ | ⟨e, hq⟩ <;> exact Ev.noConfusion hq
  · intro hlargef
    by_cases hm4 : suffixLower path = ".mp4"
    · refine ⟨replaceStr path ".mp4" "_temp.mp3",
        mainRun_mem_of_body _ _ _ ?_⟩
      rw [mainBody_small_mp4 path w hval hlargef hm4 hex]
      exact singleShotTail_whisper _ _ _
    · by_cases hm3 : suffixLower path = ".mp3"
      · refine ⟨path, mainRun_mem_of_body _ _ _ ?_⟩
        rw [mainBody_small_mp3 path w hval hlargef hm3]
        exact singleShotTail_whisper _ _ _
      · refine ⟨rsplitStem path ++ ".mp3", mainRun_mem_of_body _ _ _ ?_⟩
        rw [mainBody_small_conv path w hval hlargef hm4 hm3]
        exact singleShotTail_whisper _ _ _

/-- The world of the C9 witness: an existing mp3 of exactly 100 MB. -/
def w9 : World := ⟨true, 100 * 1024 * 1024, 0, fun _ => .ok [], .ok ['y'], true⟩

/-- C9 witness: a file of exactly 100 MB takes the single-shot path — its run
contains a whole-file whisper call. -/
theorem C9_size_threshold_witness :
    ∃ p, Ev.whisperCall p ∈ mainRun "talk.mp3" w9 :=
  (C9_size_threshold "talk.mp3" w9 rfl rfl).2.2.2 rfl

/-- C10: on the chunked (large-file) path the pipeline operates directly on
the original input — neither the ffmpeg audio-extraction step nor the mp3
conversion step is ever invoked, even for large `.mp4` input. -/
theorem C10_no_normalization_on_chunked (path : String) (w : World)
    (hval : validate_file_path path w.pathExists = .ok ())
    (hlarge : is_large_file w.sizeBytes 100 = true) :
    (∀ a b, Ev.extractCall a b ∉ mainRun path w)
    ∧ (∀ a b, Ev.convertCall a b ∉ mainRun path w) := by
  constructor
  · intro a b hmem
    rcases mainRun_large_events path w hval hlarge _ hmem with
      ⟨q, hq⟩ | ⟨q, hq⟩ | ⟨q, t, hq⟩ | ⟨e, hq⟩ <;> exact Ev.noConfusion hq
  · intro a b hmem
    rcases mainRun_large_events path w hval hlarge _ hmem with
      ⟨q, hq⟩ | ⟨q, hq⟩ | ⟨q, t, hq⟩ | ⟨e, hq⟩ <;> exact Ev.noConfusion hq

/-- The world of the C10 witness: an existing 101 MB mp4 video. -/
def w10 : World :=
  ⟨true, 101 * 1024 * 1024, 60000, fun _ => .ok ['z'], .ok ['z'], true⟩

/-- C10 witness: a large mp4 run never calls ffmpeg extraction. -/
theorem C10_no_normalization_on_chunked_witness :
    Ev.extractCall "clip.mp4" "clip_temp.mp3" ∉ mainRun "clip.mp4" w10 :=
  (C10_no_normalization_on_chunked "clip.mp4" w10 rfl rfl).1
    "clip.mp4" "clip_temp.mp3"

/-- The world of the C6 counterexample: an existing 5 MB mp4 whose single-shot
transcription returns `hi`. -/
def w6 : World := ⟨true, 5 * 1024 * 1024, 0, fun _ => .ok [], .ok ['h', 'i'], true⟩

/-- C6 counterexample: for the small input `clip.mp4` the run succeeds but
writes `clip_temp_transcription.txt` — derived from the extracted temp file's
stem — and never writes `clip_transcription.txt`, the name the claim derives
from the user-supplied input path's stem. -/
theorem C6_counterexample :
    Ev.writeOutput "clip_temp_transcription.txt" ['h', 'i']
        ∈ mainRun "clip.mp4" w6
    ∧ ∀ t, Ev.writeOutput "clip_transcription.txt" t
        ∉ mainRun "clip.mp4" w6 := by
  have hrun : mainRun "clip.mp4" w6
      = [.extractCall "clip.mp4" "clip_temp.mp3",
         .whisperCall "clip_temp.mp3",
         .writeOutput "clip_temp_transcription.txt" ['h', 'i']] := by
    rfl
  rw [hrun]
  constructor
  · simp
  · intro t ht
    simp only [List.mem_cons, List.not_mem_nil, or_false] at ht
    rcases ht with h1 | h2 | h3
    · exact Ev.noConfusion h1
    · exact Ev.noConfusion h2
    · injection h3 with hs htv
      exact absurd hs (by decide)

/-- The output path the code actually derives for a successful run: the stem
of the file handed to whisper, which equals the input's own stem except on
the single-shot mp4 path, where it is the extracted temp file's stem. -/
def expectedOutputPath (path : String) (large : Bool) : String :=
  if large then rsplitStem path ++ "_transcription.txt"
  else if suffixLower path = ".mp4" then
    rsplitStem (replaceStr path ".mp4" "_temp.mp3") ++ "_transcription.txt"
  else rsplitStem path ++ "_transcription.txt"

/-- C6 amended: every successful run writes exactly one plain-text output
file containing the transcript, named `<stem>_transcription.txt` — with
`<stem>` the stem of the user-supplied input on the chunked path and on the
single-shot mp3/wav/flac paths, but the stem of
`path.replace(".mp4", "_temp.mp3")` (the extracted temp audio) on the
single-shot mp4 path. -/
theorem C6_output_naming (path : String) (w : World)
    (hval : validate_file_path path w.pathExists = .ok ())
    (hok : (mainBody path w).2 = .ok ()) :
    ∃ t, (mainRun path w).filter isWriteEv
      = [.writeOutput
          (expectedOutputPath path (is_large_file w.sizeBytes 100)) t] := by
  have hrun : mainRun path w = (mainBody path w).1 := by
    rw [mainRun]
    rcases hb : mainBody path w with ⟨evs, r⟩
    rw [hb] at hok
    have hr : r = .ok () := hok
    subst hr
    rfl
  cases hl : is_large_file w.sizeBytes 100 with
  | true =>
    have hb := mainBody_large path w hval hl
    rcases tlap_cases w.durationMs w.engine with ⟨e, hcl, htl⟩ | ⟨acc, hcl, htl⟩
    · rw [htl] at hb
      have h2 : (mainBody path w).2 = .error e := by
        rw [hb]
      rw [hok] at h2
      exact Except.noConfusion h2
    · rw [htl] at hb
      have h1 : (mainBody path w).1
          = (((List.range (split_audio w.durationMs 60000).length).map
                chunkPath).map Ev.exportChunk
              ++ ((List.range (split_audio w.durationMs 60000).length).map
                chunkPath).map Ev.removeTemp)
            ++ [.writeOutput (rsplitStem path ++ "_transcription.txt")
                (pyStrip acc)] := by
        rw [hb]
      refine ⟨pyStrip acc, ?_⟩
      rw [hrun, h1, List.filter_append, List.filter_append,
        filter_map_const_false isWriteEv Ev.exportChunk (fun a => rfl),
        filter_map_const_false isWriteEv Ev.removeTemp (fun a => rfl)]
      simp [expectedOutputPath, List.filter, isWriteEv]
  | false =>
    by_cases hm4 : suffixLower path = ".mp4"
    · cases hex : w.extractOk with
      | false =>
        have hb := mainBody_small_mp4_extractfail path w hval hl hm4 hex
        have h2 : (mainBody path w).2 = .error .extractionFailure := by
          rw [hb]
        rw [hok] at h2
        exact Except.noConfusion h2
      | true =>
        have hb := mainBody_small_mp4 path w hval hl hm4 hex
        cases hs : w.single with
        | error e =>
          have hb2 := singleShotTail_error
            (replaceStr path ".mp4" "_temp.mp3") w
            [.extractCall path (replaceStr path ".mp4" "_temp.mp3")] e hs
          have h2 : (mainBody path w).2 = .error e := by
            rw [hb, hb2]
          rw [hok] at h2
          exact Except.noConfusion h2
        | ok t =>
          have hb2 := singleShotTail_ok
            (replaceStr path ".mp4" "_temp.mp3") w
            [.extractCall path (replaceStr path ".mp4" "_temp.mp3")] t hs
          refine ⟨t, ?_⟩
          rw [hrun, hb, hb2]
          simp [expectedOutputPath, hm4, List.filter, isWriteEv]
    · by_cases hm3 : suffixLower path = ".mp3"
      · have hb := mainBody_small_mp3 path w hval hl hm3
        cases hs : w.single with
        | error e =>
          have hb2 := singleShotTail_error path w [] e hs
          have h2 : (mainBody path w).2 = .error e := by
            rw [hb, hb2]
          rw [hok] at h2
          exact Except.noConfusion h2
        | ok t =>
          have hb2 := singleShotTail_ok path w [] t hs
          refine ⟨t, ?_⟩
          rw [hrun, hb, hb2]
          simp [expectedOutputPath, hm4, List.filter, isWriteEv]
      · have hb := mainBody_small_conv path w hval hl hm4 hm3
        cases hs : w.single with
        | error e =>
          have hb2 := singleShotTail_error (rsplitStem path ++ ".mp3") w
            [.convertCall path (rsplitStem path ++ ".mp3")] e hs
          have h2 : (mainBody path w).2 = .error e := by
            rw [hb, hb2]
          rw [hok] at h2
          exact Except.noConfusion h2
        | ok t =>
          have hb2 := singleShotTail_ok (rsplitStem path ++ ".mp3") w
            [.convertCall path (rsplitStem path ++ ".mp3")] t hs
          refine ⟨t, ?_⟩
          rw [hrun, hb, hb2, rsplitStem_rsplitStem_mp3]
          simp [expectedOutputPath, hm4, List.filter, isWriteEv]

/-- The world of the C6 amended witness: a small wav file. -/
def w6b : World := ⟨true, 1000, 0, fun _ => .ok [], .ok ['h', 'e', 'y'], true⟩

/-- C6 amended witness: the small `song.wav` run writes exactly one output
file at the expected path. -/
theorem C6_output_naming_witness :
    ∃ t, (mainRun "song.wav" w6b).filter isWriteEv
      = [.writeOutput
          (expectedOutputPath "song.wav"
            (is_large_file w6b.sizeBytes 100)) t] :=
  C6_output_naming "song.wav" w6b rfl rfl

end Transcribe
